import Mathlib

/-!
Shallow embedding of the level/board core of the senor-pacbomber game
(src/game_plugin/level.rs and src/game_plugin/types.rs), together with
theorems settling the specification claims about it.

Machine integers of the source (usize, i8) are modelled as Nat and Int;
f32 render coordinates are modelled as exact rationals; the engine's
HashMap/HashSet containers are modelled as association lists / lists of
keys; opaque Entity handles are modelled as Nat.
-/

namespace Pacbomber

/-- Block kinds, mirroring `enum BlockType` in types.rs. -/
inductive BlockType where
  | WallBig
  | WallSmallV
  | WallSmallH
  | Coin
  | Enemy
  | Player
  | Space
  | Exit
deriving DecidableEq, Repr

/-- Mirrors `BlockType::is_wall` in types.rs. -/
def BlockType.is_wall : BlockType → Bool
  | .WallBig => true
  | .WallSmallH => true
  | .WallSmallV => true
  | _ => false

/-- Mirrors `impl From<char> for BlockType` in types.rs; the `panic!` arm of
the source on an unknown character is modelled as `none`. -/
def blockTypeFromChar (c : Char) : Option BlockType :=
  match c with
  | '*' => some .Coin
  | '#' => some .WallBig
  | '-' => some .WallSmallH
  | '|' => some .WallSmallV
  | 'o' => some .Player
  | 'x' => some .Enemy
  | ' ' => some .Space
  | 'e' => some .Exit
  | _ => none

/-- Grid coordinate, mirroring `struct Position` in types.rs (usize fields). -/
structure Position where
  x : Nat
  z : Nat
deriving DecidableEq, Repr

/-- Mirrors `struct BoardDirection` in types.rs (i8 fields modelled as Int). -/
structure BoardDirection where
  x : Int
  z : Int
deriving DecidableEq, Repr

/-- Mirrors `Position::apply_direction` in types.rs: each axis is stepped
independently and the step is kept only when the result is non-negative. -/
def Position.apply_direction (p : Position) (direction : BoardDirection) : Position :=
  let x : Int := (p.x : Int) + direction.x
  let p1 : Position := if 0 ≤ x then { p with x := x.toNat } else p
  let z : Int := (p1.z : Int) + direction.z
  if 0 ≤ z then { p1 with z := z.toNat } else p1

/-- Mirrors `impl Mul<i8> for BoardDirection` in types.rs. -/
def BoardDirection.smul (d : BoardDirection) (rhs : Int) : BoardDirection :=
  ⟨d.x * rhs, d.z * rhs⟩

/-- The per-cell field size `sizes::field` (statics.rs), x component: 0.25. -/
def fieldX : Rat := 1 / 4

/-- The per-cell field size `sizes::field` (statics.rs), z component: 0.25. -/
def fieldZ : Rat := 1 / 4

/-- One grid cell, mirroring `struct Block` in types.rs; the Vec3 render
anchor is modelled as a triple of rationals. -/
structure Block where
  kind : BlockType
  position : Rat × Rat × Rat
  level_position : Position
deriving DecidableEq, Repr

instance : Inhabited Block := ⟨⟨.Space, (0, 0, 0), ⟨0, 0⟩⟩⟩

/-- The board, mirroring `struct Level` in level.rs; the engine HashMaps are
modelled as association lists keyed by Nat entity handles. -/
structure Level where
  size : Position
  offsets : Rat × Rat
  rows : List (List Block)
  player_position : Position
  ending_position : Position
  enemy_positions : List (Nat × Position)
  coin_positions : List (Nat × Position)
  bombs : List (Nat × (Nat × Position))
  bomb_size : Nat
  ending_visible : Bool
deriving DecidableEq, Repr

/-- Association-list lookup, modelling `HashMap::get`. -/
def lookupAssoc {α : Type} (m : List (Nat × α)) (k : Nat) : Option α :=
  match m with
  | [] => none
  | (k', v) :: rest => if k' = k then some v else lookupAssoc rest k

/-- Association-list insert-or-replace, modelling `HashMap::insert`. -/
def insertAssoc {α : Type} (m : List (Nat × α)) (k : Nat) (v : α) : List (Nat × α) :=
  (k, v) :: m.filter (fun p => p.1 ≠ k)

/-- Association-list removal, modelling `HashMap::remove`. -/
def removeAssoc {α : Type} (m : List (Nat × α)) (k : Nat) : List (Nat × α) :=
  m.filter (fun p => p.1 ≠ k)

/-- Mirrors `Level::get` in level.rs: bounds-checked cell access; the raw
row-major indexing is reached only under the in-bounds condition. -/
def Level.get (l : Level) (ax az : Int) : Option Block :=
  if ax < 0 ∨ az < 0 then none
  else if l.size.x ≤ ax.toNat ∨ l.size.z ≤ az.toNat then none
  else some ((l.rows.getD az.toNat []).getD ax.toNat default)

/-- Mirrors `Level::place_bomb` in level.rs. -/
def Level.place_bomb (l : Level) (entity : Nat) (position : Position) : Level :=
  { l with bombs := insertAssoc l.bombs entity (l.bomb_size, position) }

/-- Well-formedness of the row grid: the stored dimensions agree with the
row-major cell storage (guaranteed for boards built from equal-length map
lines; ragged maps are undefined behavior in the source). -/
def Level.WF (l : Level) : Prop :=
  l.rows.length = l.size.z ∧ ∀ row ∈ l.rows, row.length = l.size.x

/-- Builds one cell, mirroring the body of the row loop in `Level::new`
(level.rs): the render anchor pair is computed from the row/column indices
and the centering offsets, then stored as `Vec3::new(pair.1, 0.0, pair.0)`;
the grid position stored is `Position::new(z_index, x_index)`. -/
def mkBlock (z_offset x_offset : Rat) (x_index z_index : Nat) (kind : BlockType) : Block :=
  let p0 : Rat := (((x_index : Rat) * fieldX) - z_offset) + fieldX / 2
  let p1 : Rat := (((z_index : Rat) * fieldZ) - x_offset) + fieldZ / 2
  { kind := kind, position := (p1, 0, p0), level_position := ⟨z_index, x_index⟩ }

/-- Parses the characters of one map line into blocks, mirroring the inner
`for (z_index, block) in chars ... enumerate()` loop of `Level::new`;
an unknown character aborts (the source panics in `BlockType::from`). -/
def rowBlocks (z_offset x_offset : Rat) (x_index : Nat) :
    Nat → List Char → Option (List Block)
  | _, [] => some []
  | z_index, c :: rest =>
    match blockTypeFromChar c with
    | none => none
    | some kind =>
      (rowBlocks z_offset x_offset x_index (z_index + 1) rest).map
        (mkBlock z_offset x_offset x_index z_index kind :: ·)

/-- Parses the non-empty map lines into the row grid, mirroring the outer
`for (x_index, line) in lines ... enumerate()` loop of `Level::new`. -/
def parseRows (z_offset : Rat) : Nat → List (List Char) → Option (List (List Block))
  | _, [] => some []
  | x_index, line :: rest =>
    let chars := line
    let x_offset := (fieldX * (chars.length : Rat)) / 2
    match rowBlocks z_offset x_offset x_index 0 chars with
    | none => none
    | some row => (parseRows z_offset (x_index + 1) rest).map (row :: ·)

/-- The running player/ending scan of `Level::new`: while cells are built,
each Player / Exit cell overwrites the tracked optional position. -/
def scanFold (blocks : List Block) (acc : Option Position × Option Position) :
    Option Position × Option Position :=
  blocks.foldl
    (fun st b =>
      (if b.kind = BlockType.Player then some b.level_position else st.1,
       if b.kind = BlockType.Exit then some b.level_position else st.2))
    acc

/-- Splitting a character sequence at a separator, with the semantics of
`str::split` (map text is modelled as its character list). -/
def splitChars (sep : Char) : List Char → List (List Char)
  | [] => [[]]
  | c :: rest =>
    let r := splitChars sep rest
    if c = sep then [] :: r else (c :: r.headD []) :: r.tail

/-- The non-empty lines of the map text, mirroring
`data.split .. filter(|e| !e.is_empty())` in `Level::new`. -/
def levelLines (data : List Char) : List (List Char) :=
  (splitChars '\n' data).filter (· ≠ [])

/-- Mirrors `Level::new` in level.rs, constructing a board from the map
text (modelled as its character list); the two `expect` panics (missing
player / missing ending position) and the unknown-character panic are
modelled as `none`. -/
def Level.new (data : List Char) : Option Level :=
  let lines := levelLines data
  let z_offset := (fieldZ * (lines.length : Rat)) / 2
  let z_size := lines.length
  let x_size := lines.getLast?.elim 0 (fun line => line.length)
  let x_offset := lines.getLast?.elim 0
    (fun line => (fieldX * (line.length : Rat)) / 2)
  match parseRows z_offset 0 lines with
  | none => none
  | some rows =>
    match scanFold rows.flatten (none, none) with
    | (some player_position, some ending_position) =>
      some
        { size := ⟨x_size, z_size⟩
          offsets := (x_offset, z_offset)
          rows := rows
          player_position := player_position
          ending_position := ending_position
          enemy_positions := []
          coin_positions := []
          bombs := []
          bomb_size := 5
          ending_visible := false }
    | _ => none

/-- Mirrors `Level::translate_from_position` in level.rs (grid to world). -/
def Level.translate_from_position (l : Level) (position : Position) : Rat × Rat × Rat :=
  let x_offset := l.offsets.1
  let z_offset := l.offsets.2
  let p0 : Rat := (((position.x : Rat) * fieldX) - x_offset) + fieldX / 2
  let p1 : Rat := (((position.z : Rat) * fieldZ) - z_offset) + fieldZ / 2
  (p0, 0, p1)

/-- Modelled from the spec: the inverse world-to-grid mapping of section 4.5.
No inverse function exists in the source; the spec requires that
`grid_to_world(p)` followed by this inverse recovers `p`. It undoes the
affine map of `translate_from_position` on each axis and floors back to a
grid index. -/
def Level.world_to_grid (l : Level) (w : Rat × Rat × Rat) : Position :=
  ⟨(Int.floor (((w.1 + l.offsets.1) - fieldX / 2) / fieldX)).toNat,
   (Int.floor (((w.2.2 + l.offsets.2) - fieldZ / 2) / fieldZ)).toNat⟩

/-- The fixed direction enumeration order of `Level::free_directions`
(level.rs line 190): right(+x), left(-x), forward(+z), backward(-z). -/
def freeDirOrder : List (Int × Int) := [(1, 0), (-1, 0), (0, 1), (0, -1)]

/-- Mirrors `Level::free_directions` in level.rs: out-of-bounds neighbors
are skipped, wall neighbors are skipped, all others are free, collected in
the fixed enumeration order. -/
def Level.free_directions (l : Level) (position : Position) : List BoardDirection :=
  freeDirOrder.filterMap
    (fun d =>
      match l.get ((position.x : Int) + d.1) ((position.z : Int) + d.2) with
      | none => none
      | some item => if item.kind.is_wall then none else some ⟨d.1, d.2⟩)

/-- Whether the one-step neighbor of `p` along `d` is free: in bounds and
not of a wall kind. -/
def isFreeB (l : Level) (p : Position) (d : Int × Int) : Bool :=
  match l.get ((p.x : Int) + d.1) ((p.z : Int) + d.2) with
  | none => false
  | some item => !item.kind.is_wall

/-- Mirrors the inner `follow_range` loop of `Level::bomb_explode_positions`
(level.rs): starting at step 1, probe the cell `current_range` steps along
`direction`; stop without including on out-of-bounds or wall; otherwise
include `(cell, current_range, range)`, increment, and stop once the
incremented counter equals `range`. The loop of the source is modelled
with a fuel parameter; the caller passes fuel exceeding the number of
steps any walk can take before going out of bounds. -/
def followRange (level : Level) (range : Int) (position : Position)
    (direction : BoardDirection) : Nat → Int → List (Position × Nat × Nat)
  | 0, _ => []
  | fuel + 1, current_range =>
    let current := direction.smul current_range
    let x := (position.x : Int) + current.x
    let z := (position.z : Int) + current.z
    match level.get x z with
    | none => []
    | some item =>
      if item.kind.is_wall then []
      else
        (⟨x.toNat, z.toNat⟩, current_range.toNat, range.toNat) ::
          (if range = current_range + 1 then []
           else followRange level range position direction fuel (current_range + 1))

/-- Mirrors `Level::bomb_explode_positions` in level.rs: unknown bomb ids
yield the empty list; otherwise the origin at step 0 followed by the four
directional walks in the fixed order left, backward, right, forward. -/
def Level.bomb_explode_positions (l : Level) (entity : Nat) :
    List (Position × Nat × Nat) :=
  match lookupAssoc l.bombs entity with
  | none => []
  | some (range, position) =>
    let fuel := l.size.x + l.size.z + 2
    (position, 0, range) ::
      (followRange l (range : Int) position ⟨-1, 0⟩ fuel 1 ++
        (followRange l (range : Int) position ⟨0, -1⟩ fuel 1 ++
          (followRange l (range : Int) position ⟨1, 0⟩ fuel 1 ++
            followRange l (range : Int) position ⟨0, 1⟩ fuel 1)))

/-- The fixed neighbor order used by the wall search and shared by
`recursive_search` in level.rs line 225. -/
def dirs4 : List (Int × Int) := [(1, 0), (-1, 0), (0, 1), (0, -1)]

/-- Mirrors the nested `recursive_search` of `Level::wall_positions`
(level.rs): for each cardinal direction a candidate neighbor is formed with
`apply_direction`; candidates already tested are skipped, every fresh
candidate is marked tested, out-of-bounds candidates are skipped, and a
candidate is pushed and recursed into only when it is a wall kind other
than WallSmallV. The recursion of the source is modelled with a fuel
parameter; the caller passes fuel exceeding the number of grid cells, and
recursion only happens on fresh in-bounds cells, so the fuel never runs
out. State is the pair (into, tested). -/
def recursiveSearch (level : Level) :
    Nat → Position → List (Int × Int) → List Position → List Position →
      List Position × List Position
  | _, _, [], into, tested => (into, tested)
  | fuel, position, (mx, mz) :: rest, into, tested =>
    let new := position.apply_direction ⟨mx, mz⟩
    if new ∈ tested then
      recursiveSearch level fuel position rest into tested
    else
      let tested1 := new :: tested
      match level.get (new.x : Int) (new.z : Int) with
      | none => recursiveSearch level fuel position rest into tested1
      | some block =>
        if block.kind.is_wall = true ∧ block.kind ≠ BlockType.WallSmallV then
          match fuel with
          | 0 => recursiveSearch level 0 position rest (into ++ [new]) tested1
          | fuel1 + 1 =>
            let st := recursiveSearch level fuel1 new dirs4 (into ++ [new]) tested1
            recursiveSearch level (fuel1 + 1) position rest st.1 st.2
        else
          recursiveSearch level fuel position rest into tested1
termination_by fuel _ dirs _ _ => (fuel, dirs.length)

/-- Mirrors `Level::wall_positions` in level.rs: step one cell in +z; if
that neighbor is out of bounds or not a wall, return nothing; otherwise
seed the result and tested set with it and run the recursive search. -/
def Level.wall_positions (l : Level) (position : Position) : List Position :=
  let new_position := position.apply_direction ⟨0, 1⟩
  match l.get (new_position.x : Int) (new_position.z : Int) with
  | none => []
  | some block =>
    if block.kind.is_wall then
      (recursiveSearch l (l.size.x * l.size.z + 1) new_position dirs4
        [new_position] [new_position]).1
    else []

/-- The candidate guard of the wall search (level.rs line 239): the cell is
in bounds and of a wall kind other than the small vertical wall. -/
def goodWallB (l : Level) (p : Position) : Bool :=
  match l.get (p.x : Int) (p.z : Int) with
  | none => false
  | some block => block.kind.is_wall && decide (block.kind ≠ BlockType.WallSmallV)

/-- One connectivity step of the wall search: the target is a cardinal
`apply_direction` neighbor of the source and satisfies the wall guard. -/
def wallStep (l : Level) (p q : Position) : Prop :=
  (∃ d ∈ dirs4, q = p.apply_direction ⟨d.1, d.2⟩) ∧ goodWallB l q = true

/-- All in-grid positions, row by row. -/
def gridCells (l : Level) : List Position :=
  ((List.range l.size.z).map
    (fun z => (List.range l.size.x).map (fun x => Position.mk x z))).flatten

/-- The number of in-grid positions not yet marked tested; it bounds the
recursion depth of the wall search. -/
def remainingCells (l : Level) (tested : List Position) : Nat :=
  ((gridCells l).filter (fun p => ¬ p ∈ tested)).length

/-- The board effect of the per-tick system `bomb_explosion_destruction`
(logic.rs lines 768-806): enemies standing on an explosion cell are removed
from `enemy_positions`, and when no enemies remain, the level has finished
loading, and the ending is not yet visible, `ending_visible` is set true.
The `done_loading` resource flag read by the guard is passed in as an
external parameter. -/
def Level.destructionTick (l : Level) (explosions : List Position)
    (done_loading : Bool) : Level :=
  let enemies := l.enemy_positions.filter (fun ep => ¬ ep.2 ∈ explosions)
  let l1 := { l with enemy_positions := enemies }
  if enemies.isEmpty ∧ l1.ending_visible = false ∧ done_loading = true then
    { l1 with ending_visible := true }
  else l1

/-- The board mutations performed by the game systems (logic.rs): bomb
placement and removal, player/enemy/coin occupancy bookkeeping, coin
clearing, and the per-tick destruction update that may reveal the exit. -/
inductive LevelOp where
  | placeBomb (entity : Nat) (position : Position)
  | removeBomb (entity : Nat)
  | setPlayerPosition (position : Position)
  | insertEnemy (entity : Nat) (position : Position)
  | removeEnemy (entity : Nat)
  | insertCoin (entity : Nat) (position : Position)
  | removeCoin (entity : Nat)
  | clearCoins
  | destructionTick (explosions : List Position) (done_loading : Bool)

/-- Applies one board mutation. -/
def LevelOp.apply (op : LevelOp) (l : Level) : Level :=
  match op with
  | .placeBomb entity position => l.place_bomb entity position
  | .removeBomb entity => { l with bombs := removeAssoc l.bombs entity }
  | .setPlayerPosition position => { l with player_position := position }
  | .insertEnemy entity position =>
    { l with enemy_positions := insertAssoc l.enemy_positions entity position }
  | .removeEnemy entity =>
    { l with enemy_positions := removeAssoc l.enemy_positions entity }
  | .insertCoin entity position =>
    { l with coin_positions := insertAssoc l.coin_positions entity position }
  | .removeCoin entity =>
    { l with coin_positions := removeAssoc l.coin_positions entity }
  | .clearCoins => { l with coin_positions := [] }
  | .destructionTick explosions done_loading =>
    l.destructionTick explosions done_loading

/-- Applies a sequence of board mutations in order. -/
def applyOps (ops : List LevelOp) (l : Level) : Level :=
  ops.foldl (fun acc op => op.apply acc) l

/-- A placeholder board used only to strip the Option from parsed concrete
boards below. -/
def defaultLevel : Level :=
  ⟨⟨0, 0⟩, (0, 0), [], ⟨0, 0⟩, ⟨0, 0⟩, [], [], [], 5, false⟩

/-- A small concrete map: a walled 9 x 3 corridor with the player at (1, 1)
and the exit at (7, 1). -/
def mapA : List Char := "#########\n#o     e#\n#########".toList

/-- The board parsed from `mapA`. -/
def levelA : Level := (Level.new mapA).getD defaultLevel

/-- `levelA` with a bomb placed at the player position, as the input system
does (logic.rs line 562). -/
def levelABomb : Level := levelA.place_bomb 0 levelA.player_position

/-- `levelA` with a bomb recorded on the wall cell (0, 0): `place_bomb`
performs no validation of the position. -/
def levelAWallBomb : Level := levelA.place_bomb 0 ⟨0, 0⟩

/-- A concrete map with a wall cluster below (2, 1), for the wall-search
witness. -/
def mapB : List Char := "#########\n# o    e#\n###     #\n#########".toList

/-- The board parsed from `mapB`. -/
def levelB : Level := (Level.new mapB).getD defaultLevel

/-- A concrete map with two player cells and two exit cells. -/
def mapC : List Char := "####\n#oe#\n#eo#\n####".toList

/-- `levelA` with the exit already revealed, for the one-way-flag witness. -/
def levelAVisible : Level := { levelA with ending_visible := true }

/-- The board parsed from `mapC` (two players, two exits). -/
def levelC : Level := (Level.new mapC).getD defaultLevel

/-- A concrete map with neither a player cell nor an exit cell. -/
def mapD : List Char := "###
# #
###".toList

theorem apply_direction_def (p : Position) (d : BoardDirection) :
    p.apply_direction d =
      ⟨if 0 ≤ (p.x : Int) + d.x then ((p.x : Int) + d.x).toNat else p.x,
       if 0 ≤ (p.z : Int) + d.z then ((p.z : Int) + d.z).toNat else p.z⟩ := by
  unfold Position.apply_direction
  by_cases hx : 0 ≤ (p.x : Int) + d.x <;> by_cases hz : 0 ≤ (p.z : Int) + d.z <;>
    simp [hx, hz]

/-- Helper: `Level.get` returns `none` exactly on out-of-bounds input. -/
theorem get_eq_none_iff (l : Level) (ax az : Int) :
    l.get ax az = none ↔
      ax < 0 ∨ az < 0 ∨ (l.size.x : Int) ≤ ax ∨ (l.size.z : Int) ≤ az := by
  unfold Level.get
  by_cases h1 : ax < 0 ∨ az < 0
  · simp only [h1, if_true, true_iff]
    tauto
  · push_neg at h1
    obtain ⟨hx, hz⟩ := h1
    simp only [not_or.mpr ⟨not_lt.mpr hx, not_lt.mpr hz⟩, if_false]
    by_cases h2 : l.size.x ≤ ax.toNat ∨ l.size.z ≤ az.toNat
    · simp only [h2, if_true, true_iff]
      rcases h2 with h | h
      · right; right; left; omega
      · right; right; right; omega
    · push_neg at h2
      obtain ⟨h2x, h2z⟩ := h2
      simp only [not_or.mpr ⟨not_le.mpr h2x, not_le.mpr h2z⟩, if_false]
      constructor
      · intro hc
        cases hc
      · intro hc
        exfalso
        rcases hc with h3 | h3 | h3 | h3 <;> omega

/-- Helper: in-bounds `Level.get` returns the stored cell. -/
theorem get_in_bounds (l : Level) (ax az : Int) (hx : 0 ≤ ax) (hz : 0 ≤ az)
    (hx2 : ax < (l.size.x : Int)) (hz2 : az < (l.size.z : Int)) :
    l.get ax az = some ((l.rows.getD az.toNat []).getD ax.toNat default) := by
  unfold Level.get
  rw [if_neg (by omega), if_neg (by omega)]

/-- C8: `Position.apply_direction` clamps only on the lower bound: an axis
whose stepped value would be negative keeps its old value while the other
axis is still updated, and a stepped value exceeding the grid's upper bound
is stored unchanged with no rejection or clamping. -/
theorem apply_direction_lower_clamp_only (p : Position) (d : BoardDirection) :
    ((p.x : Int) + d.x < 0 → (p.apply_direction d).x = p.x) ∧
    (0 ≤ (p.x : Int) + d.x → ((p.apply_direction d).x : Int) = (p.x : Int) + d.x) ∧
    ((p.z : Int) + d.z < 0 → (p.apply_direction d).z = p.z) ∧
    (0 ≤ (p.z : Int) + d.z → ((p.apply_direction d).z : Int) = (p.z : Int) + d.z) := by
  rw [apply_direction_def]
  refine ⟨fun h => ?_, fun h => ?_, fun h => ?_, fun h => ?_⟩
  · simp only [if_neg (not_le.mpr h)]
  · simp only [if_pos h]
    omega
  · simp only [if_neg (not_le.mpr h)]
  · simp only [if_pos h]
    omega

/-- Witness for C8 at a concrete input: stepping (0, 3) by (-1, +7) keeps
x (lower clamp) while z is updated past any grid bound, unclamped. -/
theorem apply_direction_lower_clamp_only_witness :
    (Position.apply_direction ⟨0, 3⟩ ⟨-1, 7⟩).x = 0 ∧
    ((Position.apply_direction ⟨0, 3⟩ ⟨-1, 7⟩).z : Int) = 10 := by
  have h := apply_direction_lower_clamp_only ⟨0, 3⟩ ⟨-1, 7⟩
  exact ⟨h.1 (by decide), h.2.2.2 (by decide)⟩

/-- C6: the cell accessor is total: it returns `none` exactly on inputs with
a negative coordinate or a coordinate at or beyond the grid dimensions, and
for every in-bounds input it returns the cell stored at that grid slot; the
raw row-major indexing is reached only under the in-bounds condition. -/
theorem get_totality (l : Level) (hWF : l.WF) (ax az : Int) :
    (l.get ax az = none ↔
      ax < 0 ∨ az < 0 ∨ (l.size.x : Int) ≤ ax ∨ (l.size.z : Int) ≤ az) ∧
    (0 ≤ ax → 0 ≤ az → ax < (l.size.x : Int) → az < (l.size.z : Int) →
      ∃ b, (l.rows[az.toNat]?.bind (fun row => row[ax.toNat]?)) = some b ∧
        l.get ax az = some b) := by
  refine ⟨get_eq_none_iff l ax az, fun hx hz hx2 hz2 => ?_⟩
  obtain ⟨hlen, hrow⟩ := hWF
  have haz : az.toNat < l.rows.length := by omega
  have hrowk : l.rows[az.toNat]? = some l.rows[az.toNat] := List.getElem?_eq_getElem haz
  have hmem : l.rows[az.toNat] ∈ l.rows := List.getElem_mem haz
  have hax : ax.toNat < (l.rows[az.toNat]).length := by
    rw [hrow _ hmem]
    omega
  refine ⟨(l.rows[az.toNat])[ax.toNat], ?_, ?_⟩
  · rw [hrowk]
    exact List.getElem?_eq_getElem hax
  · rw [get_in_bounds l ax az hx hz hx2 hz2]
    congr 1
    rw [List.getD_eq_getElem l.rows [] haz]
    exact List.getD_eq_getElem _ default hax

/-- Witness for C6 at a concrete board: on the parsed corridor level, an
out-of-bounds probe returns none and an in-bounds probe returns the stored
cell. -/
theorem get_totality_witness :
    levelA.get 9 1 = none ∧ ∃ b, levelA.get 1 1 = some b := by
  have hWF : levelA.WF := ⟨by decide, by decide⟩
  have h := get_totality levelA hWF 9 1
  have h2 := get_totality levelA hWF 1 1
  refine ⟨h.1.mpr (by decide), ?_⟩
  obtain ⟨b, _, hb⟩ := h2.2 (by decide) (by decide) (by decide) (by decide)
  exact ⟨b, hb⟩

/-- C7: the grid-to-world transform is exactly invertible on grid-aligned
positions: for every in-bounds grid position, applying
`translate_from_position` and then the inverse world-to-grid mapping
recovers the position. -/
theorem grid_world_roundtrip (l : Level) (p : Position)
    (_hx : p.x < l.size.x) (_hz : p.z < l.size.z) :
    l.world_to_grid (l.translate_from_position p) = p := by
  unfold Level.world_to_grid Level.translate_from_position
  have hfx : (fieldX : ℚ) ≠ 0 := by
    unfold fieldX
    norm_num
  have hfz : (fieldZ : ℚ) ≠ 0 := by
    unfold fieldZ
    norm_num
  have ex : ((((p.x : ℚ) * fieldX - l.offsets.1) + fieldX / 2 + l.offsets.1) -
      fieldX / 2) / fieldX = (p.x : ℚ) := by
    field_simp
    ring
  have ez : ((((p.z : ℚ) * fieldZ - l.offsets.2) + fieldZ / 2 + l.offsets.2) -
      fieldZ / 2) / fieldZ = (p.z : ℚ) := by
    field_simp
    ring
  simp only [ex, ez, Int.floor_natCast, Int.toNat_ofNat]

/-- Witness for C7 at a concrete board and position. -/
theorem grid_world_roundtrip_witness :
    levelA.world_to_grid (levelA.translate_from_position ⟨3, 1⟩) = ⟨3, 1⟩ :=
  grid_world_roundtrip levelA ⟨3, 1⟩ (by decide) (by decide)

/-- Helper: the filterMap of `free_directions` is the order-preserving
filter of the direction enumeration by the free-neighbor test. -/
theorem filterMap_free (l : Level) (p : Position) (ds : List (Int × Int)) :
    ds.filterMap (fun d =>
        match l.get ((p.x : Int) + d.1) ((p.z : Int) + d.2) with
        | none => none
        | some item =>
          if item.kind.is_wall then none else some (⟨d.1, d.2⟩ : BoardDirection))
      = (ds.filter (fun d => isFreeB l p d)).map
          (fun d => (⟨d.1, d.2⟩ : BoardDirection)) := by
  induction ds with
  | nil => rfl
  | cons d rest ih =>
    simp only [List.filterMap_cons, List.filter_cons]
    cases hget : l.get ((p.x : Int) + d.1) ((p.z : Int) + d.2) with
    | none =>
      have hfree : isFreeB l p d = false := by
        simp [isFreeB, hget]
      rw [hfree]
      simpa using ih
    | some item =>
      by_cases hw : item.kind.is_wall = true
      · have hfree : isFreeB l p d = false := by
          simp [isFreeB, hget, hw]
        rw [hfree]
        simp only [hw, if_true]
        simpa using ih
      · have hw2 : item.kind.is_wall = false := by
          cases hvw : item.kind.is_wall with
          | true => exact absurd hvw hw
          | false => rfl
        have hfree : isFreeB l p d = true := by
          simp [isFreeB, hget, hw2]
        rw [hfree]
        simp only [hw2, Bool.false_eq_true, if_false, if_true, List.map_cons]
        rw [ih]
  
/-- Helper: the free-neighbor test holds exactly when the neighbor is in
bounds and the stored cell is not of a wall kind. -/
theorem isFreeB_iff (l : Level) (p : Position) (dx dz : Int) :
    isFreeB l p (dx, dz) = true ↔
      (0 ≤ (p.x : Int) + dx ∧ (p.x : Int) + dx < (l.size.x : Int) ∧
        0 ≤ (p.z : Int) + dz ∧ (p.z : Int) + dz < (l.size.z : Int) ∧
        ((l.rows.getD ((p.z : Int) + dz).toNat []).getD ((p.x : Int) + dx).toNat
            default).kind.is_wall = false) := by
  unfold isFreeB
  cases hget : l.get ((p.x : Int) + dx) ((p.z : Int) + dz) with
  | none =>
    have hoob := (get_eq_none_iff l _ _).mp hget
    constructor
    · intro hc
      cases hc
    · intro hc
      obtain ⟨h1, h2, h3, h4, _⟩ := hc
      exfalso
      rcases hoob with h | h | h | h <;> omega
  | some item =>
    have hbound : ¬ ((p.x : Int) + dx < 0 ∨ (p.z : Int) + dz < 0 ∨
        (l.size.x : Int) ≤ (p.x : Int) + dx ∨
        (l.size.z : Int) ≤ (p.z : Int) + dz) := by
      intro h
      rw [(get_eq_none_iff l _ _).mpr h] at hget
      cases hget
    push_neg at hbound
    obtain ⟨h1, h2, h3, h4⟩ := hbound
    have hsome := get_in_bounds l ((p.x : Int) + dx) ((p.z : Int) + dz)
      (by omega) (by omega) (by omega) (by omega)
    rw [hget] at hsome
    have hitem := Option.some.inj hsome
    subst hitem
    constructor
    · intro hfree
      refine ⟨by omega, by omega, by omega, by omega, ?_⟩
      simpa using hfree
    · intro hc
      simpa using hc.2.2.2.2

/-- C3: `free_directions` lists, in the fixed enumeration order right(+x),
left(-x), forward(+z), backward(-z), exactly those cardinal directions
whose one-step neighbor is inside the grid and whose stored cell kind is
not a wall kind; out-of-bounds neighbors are skipped without error. -/
theorem free_directions_spec (l : Level) (p : Position) :
    l.free_directions p =
      (freeDirOrder.filter (fun d => isFreeB l p d)).map
        (fun d => (⟨d.1, d.2⟩ : BoardDirection)) ∧
    ∀ dx dz : Int, (⟨dx, dz⟩ : BoardDirection) ∈ l.free_directions p ↔
      ((dx, dz) ∈ freeDirOrder ∧ 0 ≤ (p.x : Int) + dx ∧
        (p.x : Int) + dx < (l.size.x : Int) ∧ 0 ≤ (p.z : Int) + dz ∧
        (p.z : Int) + dz < (l.size.z : Int) ∧
        ((l.rows.getD ((p.z : Int) + dz).toNat []).getD ((p.x : Int) + dx).toNat
            default).kind.is_wall = false) := by
  have horder : l.free_directions p =
      (freeDirOrder.filter (fun d => isFreeB l p d)).map
        (fun d => (⟨d.1, d.2⟩ : BoardDirection)) :=
    filterMap_free l p freeDirOrder
  refine ⟨horder, fun dx dz => ?_⟩
  rw [horder]
  constructor
  · intro hmem
    obtain ⟨d, hd, hmk⟩ := List.mem_map.mp hmem
    obtain ⟨hdo, hfree⟩ := List.mem_filter.mp hd
    have hdx : d.1 = dx := congrArg BoardDirection.x hmk
    have hdz : d.2 = dz := congrArg BoardDirection.z hmk
    have hdeq : d = (dx, dz) := Prod.ext hdx hdz
    subst hdeq
    obtain ⟨h1, h2, h3, h4, h5⟩ := (isFreeB_iff l p dx dz).mp hfree
    exact ⟨hdo, h1, h2, h3, h4, h5⟩
  · intro hc
    obtain ⟨hdo, h1, h2, h3, h4, h5⟩ := hc
    refine List.mem_map.mpr ⟨(dx, dz), List.mem_filter.mpr ⟨hdo, ?_⟩, rfl⟩
    exact (isFreeB_iff l p dx dz).mpr ⟨h1, h2, h3, h4, h5⟩

/-- Helper: a successful `Level.get` implies the coordinates are in bounds. -/
theorem get_some_bounds (l : Level) (ax az : Int) (b : Block)
    (h : l.get ax az = some b) :
    0 ≤ ax ∧ 0 ≤ az ∧ ax < (l.size.x : Int) ∧ az < (l.size.z : Int) := by
  have hbound : ¬ (ax < 0 ∨ az < 0 ∨ (l.size.x : Int) ≤ ax ∨
      (l.size.z : Int) ≤ az) := by
    intro hd
    rw [(get_eq_none_iff l ax az).mpr hd] at h
    cases h
  push_neg at hbound
  exact ⟨hbound.1, hbound.2.1, hbound.2.2.1, hbound.2.2.2⟩

/-- Helper: every entry produced by a `follow_range` walk that starts at a
step counter of at least 1 has step at least 1 and sits on an in-bounds
non-wall cell. -/
theorem followRange_entries (l : Level) (range : Int) (position : Position)
    (direction : BoardDirection) :
    ∀ (fuel : Nat) (c : Int), 1 ≤ c →
      ∀ e ∈ followRange l range position direction fuel c,
        1 ≤ e.2.1 ∧ ∃ b, l.get (e.1.x : Int) (e.1.z : Int) = some b ∧
          b.kind.is_wall = false := by
  intro fuel
  induction fuel with
  | zero =>
    intro c hc e he
    cases he
  | succ fuel ih =>
    intro c hc e he
    rw [followRange] at he
    rcases hget : l.get ((position.x : Int) + (direction.smul c).x)
        ((position.z : Int) + (direction.smul c).z) with _ | item
    · simp only [hget] at he
      cases he
    · simp only [hget] at he
      by_cases hw : item.kind.is_wall = true
      · rw [if_pos hw] at he
        cases he
      · rw [if_neg hw] at he
        have hw2 : item.kind.is_wall = false := by
          cases hvw : item.kind.is_wall with
          | true => exact absurd hvw hw
          | false => rfl
        have hb := get_some_bounds l _ _ _ hget
        rcases List.mem_cons.mp he with he1 | he2
        · subst he1
          refine ⟨by simp; omega, item, ?_, hw2⟩
          have hx : ((((position.x : Int) + (direction.smul c).x).toNat : Int)) =
              (position.x : Int) + (direction.smul c).x := by omega
          have hz : ((((position.z : Int) + (direction.smul c).z).toNat : Int)) =
              (position.z : Int) + (direction.smul c).z := by omega
          rw [hx, hz]
          exact hget
        · by_cases hstop : range = c + 1
          · rw [if_pos hstop] at he2
            cases he2
          · rw [if_neg hstop] at he2
            exact ih (c + 1) (by omega) e he2

/-- C2 (amended): for every bomb recorded in active_bombs, the outward walk
of blast_positions stops, without including the cell, the first time it
goes out of bounds or reaches a wall-kind cell, so every entry contributed
by the outward walks (step_distance at least 1) lies on an in-bounds
non-wall cell; the origin cell is included first at step_distance 0
unconditionally, whatever its kind or bounds status. -/
theorem blast_walk_safety (l : Level) (entity : Nat) (range : Nat)
    (position : Position)
    (h : lookupAssoc l.bombs entity = some (range, position)) :
    ∃ rest, l.bomb_explode_positions entity = (position, 0, range) :: rest ∧
      ∀ e ∈ rest, 1 ≤ e.2.1 ∧ ∃ b, l.get (e.1.x : Int) (e.1.z : Int) = some b ∧
        b.kind.is_wall = false := by
  unfold Level.bomb_explode_positions
  rw [h]
  refine ⟨_, rfl, ?_⟩
  intro e he
  rcases List.mem_append.mp he with h1 | h23
  · exact followRange_entries l range position ⟨-1, 0⟩ _ 1 (by omega) e h1
  rcases List.mem_append.mp h23 with h2 | h34
  · exact followRange_entries l range position ⟨0, -1⟩ _ 1 (by omega) e h2
  rcases List.mem_append.mp h34 with h3 | h4
  · exact followRange_entries l range position ⟨1, 0⟩ _ 1 (by omega) e h3
  · exact followRange_entries l range position ⟨0, 1⟩ _ 1 (by omega) e h4

/-- C2 counterexample: a bomb recorded on the wall cell (0, 0) (the Board
performs no validation in `place_bomb`) makes `bomb_explode_positions`
return that wall cell at step 0, so a wall cell does appear in the returned
sequence. -/
theorem blast_walk_safety_counterexample :
    levelAWallBomb.bomb_explode_positions 0 = [(⟨0, 0⟩, 0, 5)] ∧
    (levelAWallBomb.get 0 0).map (fun b => b.kind.is_wall) = some true := by
  constructor
  · decide
  · decide

/-- Witness for the amended C2 at a concrete board: the origin entry of a
recorded bomb leads the returned sequence. -/
theorem blast_walk_safety_witness :
    (levelABomb.bomb_explode_positions 0).head? = some (⟨1, 1⟩, 0, 5) := by
  obtain ⟨rest, heq, -⟩ :=
    blast_walk_safety levelABomb 0 5 ⟨1, 1⟩ (by decide)
  rw [heq]
  rfl

/-- Helper: the corridor map parses successfully into `levelA`. -/
theorem new_mapA_eq : Level.new mapA = some levelA := by
  have hs : (Level.new mapA).isSome = true := by decide
  unfold levelA
  cases hn : Level.new mapA with
  | none =>
    rw [hn] at hs
    cases hs
  | some l => rfl

/-- Helper: any single board mutation preserves a revealed exit flag. -/
theorem apply_preserves_visible (op : LevelOp) (l : Level)
    (h : l.ending_visible = true) : (op.apply l).ending_visible = true := by
  cases op with
  | destructionTick explosions done_loading =>
    simp only [LevelOp.apply, Level.destructionTick, h]
    split
    · rfl
    · rfl
  | placeBomb e p => exact h
  | removeBomb e => exact h
  | setPlayerPosition p => exact h
  | insertEnemy e p => exact h
  | removeEnemy e => exact h
  | insertCoin e p => exact h
  | removeCoin e => exact h
  | clearCoins => exact h

/-- C9: the exit-revealed flag is one-way: it starts false at construction,
and once true, no sequence of further board operations or per-tick update
calls ever resets it to false. -/
theorem ending_visible_one_way :
    (∀ data l, Level.new data = some l → l.ending_visible = false) ∧
    (∀ (l : Level) (ops : List LevelOp), l.ending_visible = true →
      (applyOps ops l).ending_visible = true) := by
  constructor
  · intro data l h
    simp only [Level.new] at h
    split at h
    · cases h
    · split at h
      · rw [Option.some_inj] at h
        rw [← h]
      · cases h
  · intro l ops
    induction ops generalizing l with
    | nil => exact fun h => h
    | cons op rest ih =>
      intro h
      exact ih (op.apply l) (apply_preserves_visible op l h)

/-- Witness for C9 at a concrete board: the flag is false after parsing, and
a revealed flag survives a destruction tick and occupancy mutations. -/
theorem ending_visible_one_way_witness :
    levelA.ending_visible = false ∧
    (applyOps [LevelOp.removeEnemy 3, LevelOp.destructionTick [] true,
        LevelOp.clearCoins] levelAVisible).ending_visible = true := by
  constructor
  · exact ending_visible_one_way.1 mapA levelA new_mapA_eq
  · exact ending_visible_one_way.2 levelAVisible _ (by decide)

/-- Helper: along an open corridor (every probed cell in bounds and not a
wall), a `follow_range` walk starting at step `c` with `c + n = range`
produces exactly the entries for steps `c` through `range - 1`. -/
theorem followRange_open_corridor (l : Level) (range : Int) (position : Position)
    (direction : BoardDirection) :
    ∀ (n : Nat) (fuel : Nat) (c : Int), 1 ≤ n → 1 ≤ c → c + n = range →
      n ≤ fuel →
      (∀ k : Int, c ≤ k → k < range →
        ∃ b, l.get ((position.x : Int) + direction.x * k)
          ((position.z : Int) + direction.z * k) = some b ∧
            b.kind.is_wall = false) →
      followRange l range position direction fuel c =
        (List.range' c.toNat n).map
          (fun k => (⟨((position.x : Int) + direction.x * (k : Int)).toNat,
              ((position.z : Int) + direction.z * (k : Int)).toNat⟩,
            k, range.toNat)) := by
  intro n
  induction n with
  | zero =>
    intro fuel c h1
    exact absurd h1 (by omega)
  | succ n ih =>
    intro fuel c _ hc hsum hfuel hopen
    rcases fuel with _ | f
    · exact absurd hfuel (by omega)
    rw [followRange]
    obtain ⟨b, hb, hbw⟩ := hopen c le_rfl (by omega)
    have hsx : (direction.smul c).x = direction.x * c := rfl
    have hsz : (direction.smul c).z = direction.z * c := rfl
    rw [hsx, hsz, hb]
    simp only [hbw, Bool.false_eq_true, if_false]
    have hcast : ((c.toNat : Int)) = c := by omega
    by_cases hn0 : n = 0
    · subst hn0
      rw [if_pos (by omega)]
      simp only [List.range'_succ, List.range', List.map_cons, List.map_nil]
      rw [hcast]
    · rw [if_neg (by omega)]
      rw [ih f (c + 1) (by omega) (by omega) (by omega) (by omega)
        (fun k hk1 hk2 => hopen k (by omega) hk2)]
      have hsucc : (c + 1).toNat = c.toNat + 1 := by omega
      rw [hsucc, List.range'_succ, List.map_cons, hcast]

/-- C1 (amended): for a bomb recorded in active_bombs and a cardinal
direction whose corridor has no wall and no grid edge within range,
`bomb_explode_positions` walks that direction starting at step 1 and
includes exactly `max_range - 1` cells: steps 1 through `max_range - 1`,
the cell at step `max_range - 1` being included before the walk stops; the
cell at step `max_range` is never included, because the stop test compares
the incremented step counter with the range. -/
theorem blast_open_corridor (l : Level) (entity : Nat) (range : Nat)
    (position : Position) (direction : BoardDirection)
    (hb : lookupAssoc l.bombs entity = some (range, position))
    (hd : direction ∈ [(⟨-1, 0⟩ : BoardDirection), ⟨0, -1⟩, ⟨1, 0⟩, ⟨0, 1⟩])
    (hr : 2 ≤ range)
    (hopen : ∀ k : Nat, k ≤ range → 1 ≤ k →
      (l.get ((position.x : Int) + direction.x * k)
          ((position.z : Int) + direction.z * k)).map
        (fun b => b.kind.is_wall) = some false) :
    followRange l (range : Int) position direction (l.size.x + l.size.z + 2) 1 =
      (List.range' 1 (range - 1)).map
        (fun k => (⟨((position.x : Int) + direction.x * (k : Int)).toNat,
            ((position.z : Int) + direction.z * (k : Int)).toNat⟩, k, range)) ∧
    l.bomb_explode_positions entity =
      (position, 0, range) ::
        (followRange l (range : Int) position ⟨-1, 0⟩ (l.size.x + l.size.z + 2) 1 ++
          (followRange l (range : Int) position ⟨0, -1⟩ (l.size.x + l.size.z + 2) 1 ++
            (followRange l (range : Int) position ⟨1, 0⟩ (l.size.x + l.size.z + 2) 1 ++
              followRange l (range : Int) position ⟨0, 1⟩
                (l.size.x + l.size.z + 2) 1))) := by
  have hopen2 : ∀ k : Int, 1 ≤ k → k < (range : Int) →
      ∃ b, l.get ((position.x : Int) + direction.x * k)
        ((position.z : Int) + direction.z * k) = some b ∧
          b.kind.is_wall = false := by
    intro k hk1 hk2
    have hkeq : ((k.toNat : Int)) = k := by omega
    have hh := hopen k.toNat (by omega) (by omega)
    rw [hkeq] at hh
    cases hget : l.get ((position.x : Int) + direction.x * k)
        ((position.z : Int) + direction.z * k) with
    | none =>
      rw [hget] at hh
      cases hh
    | some b =>
      rw [hget] at hh
      refine ⟨b, rfl, ?_⟩
      simpa using hh
  have hfuel : range - 1 ≤ l.size.x + l.size.z + 2 := by
    obtain ⟨b1, hb1, -⟩ := hopen2 1 le_rfl (by omega)
    obtain ⟨br, hbr, -⟩ := hopen2 ((range : Int) - 1) (by omega) (by omega)
    have hg1 := get_some_bounds l _ _ _ hb1
    have hgr := get_some_bounds l _ _ _ hbr
    fin_cases hd <;> simp at hg1 hgr <;> omega
  constructor
  · have heq := followRange_open_corridor l (range : Int) position direction
      (range - 1) (l.size.x + l.size.z + 2) 1 (by omega) le_rfl (by omega)
      hfuel hopen2
    rw [heq]
    have htn : ((range : Int)).toNat = range := by omega
    have h1n : ((1 : Int)).toNat = 1 := rfl
    rw [htn, h1n]
  · unfold Level.bomb_explode_positions
    rw [hb]

/-- C1 counterexample: on the corridor board, the cells at steps 1..5 right
of the bomb at (1, 1) with range 5 are all in bounds and non-wall, yet the
returned sequence contains only the cells at steps 1..4 in that direction:
the cell at step_distance 5 = max_range is not included, so the walk does
not include max_range cells. -/
theorem blast_open_corridor_counterexample :
    (levelABomb.get 2 1).map (fun b => b.kind.is_wall) = some false ∧
    (levelABomb.get 3 1).map (fun b => b.kind.is_wall) = some false ∧
    (levelABomb.get 4 1).map (fun b => b.kind.is_wall) = some false ∧
    (levelABomb.get 5 1).map (fun b => b.kind.is_wall) = some false ∧
    (levelABomb.get 6 1).map (fun b => b.kind.is_wall) = some false ∧
    lookupAssoc levelABomb.bombs 0 = some (5, ⟨1, 1⟩) ∧
    levelABomb.bomb_explode_positions 0 =
      [(⟨1, 1⟩, 0, 5), (⟨2, 1⟩, 1, 5), (⟨3, 1⟩, 2, 5),
        (⟨4, 1⟩, 3, 5), (⟨5, 1⟩, 4, 5)] := by
  refine ⟨by decide, by decide, by decide, by decide, by decide, by decide, ?_⟩
  decide

/-- Witness for the amended C1 at a concrete board: the rightward walk of
the corridor bomb yields exactly the cells at steps 1..4. -/
theorem blast_open_corridor_witness :
    followRange levelABomb 5 ⟨1, 1⟩ ⟨1, 0⟩
        (levelABomb.size.x + levelABomb.size.z + 2) 1 =
      [(⟨2, 1⟩, 1, 5), (⟨3, 1⟩, 2, 5), (⟨4, 1⟩, 3, 5), (⟨5, 1⟩, 4, 5)] := by
  have h := (blast_open_corridor levelABomb 0 5 ⟨1, 1⟩ ⟨1, 0⟩ (by decide)
    (by decide) (by decide) (by decide)).1
  exact h.trans (by decide)

/-- Helper: an element given by `getLast?` is a member of the list. -/
theorem getLast?_mem_of_eq {α : Type} {l : List α} {y : α}
    (h : l.getLast? = some y) : y ∈ l := by
  have hm : y ∈ l.getLast? := Option.mem_def.mpr h
  obtain ⟨hne, heq⟩ := List.mem_getLast?_eq_getLast hm
  rw [heq]
  exact List.getLast_mem hne

/-- Helper: the legend maps a character to Player exactly when it is the
player-start character. -/
theorem blockTypeFromChar_player (c : Char) :
    blockTypeFromChar c = some BlockType.Player ↔ c = 'o' := by
  unfold blockTypeFromChar
  split <;> simp_all

/-- Helper: the legend maps a character to Exit exactly when it is the exit
character. -/
theorem blockTypeFromChar_exit (c : Char) :
    blockTypeFromChar c = some BlockType.Exit ↔ c = 'e' := by
  unfold blockTypeFromChar
  split <;> simp_all

/-- Helper: a row parse fails exactly when some character of the line is
outside the legend. -/
theorem rowBlocks_eq_none_iff (z_offset x_offset : Rat) (x_index : Nat) :
    ∀ (chars : List Char) (z_index : Nat),
      rowBlocks z_offset x_offset x_index z_index chars = none ↔
        ∃ c ∈ chars, blockTypeFromChar c = none := by
  intro chars
  induction chars with
  | nil =>
    intro z
    simp [rowBlocks]
  | cons c rest ih =>
    intro z
    rw [rowBlocks]
    cases hc : blockTypeFromChar c with
    | none => simp [hc]
    | some kind =>
      rw [Option.map_eq_none', ih (z + 1)]
      constructor
      · rintro ⟨c1, hc1, hn1⟩
        exact ⟨c1, List.mem_cons_of_mem c hc1, hn1⟩
      · rintro ⟨c1, hc1, hn1⟩
        rcases List.mem_cons.mp hc1 with h1 | h1
        · subst h1
          rw [hc] at hn1
          cases hn1
        · exact ⟨c1, h1, hn1⟩

/-- Helper: the blocks of a parsed row carry exactly the kinds parsed from
the line characters. -/
theorem rowBlocks_kinds (z_offset x_offset : Rat) (x_index : Nat) :
    ∀ (chars : List Char) (z_index : Nat) (row : List Block),
      rowBlocks z_offset x_offset x_index z_index chars = some row →
      ∀ kind : BlockType,
        ((∃ b ∈ row, b.kind = kind) ↔
          ∃ c ∈ chars, blockTypeFromChar c = some kind) := by
  intro chars
  induction chars with
  | nil =>
    intro z row h kind
    have hrow := Option.some.inj h
    subst hrow
    simp
  | cons c rest ih =>
    intro z row h kind
    rw [rowBlocks] at h
    cases hc : blockTypeFromChar c with
    | none =>
      rw [hc] at h
      cases h
    | some k0 =>
      rw [hc] at h
      cases hr : rowBlocks z_offset x_offset x_index (z + 1) rest with
      | none =>
        rw [hr] at h
        cases h
      | some row1 =>
        rw [hr] at h
        have hrow := Option.some.inj h
        subst hrow
        constructor
        · rintro ⟨b, hb, hk⟩
          rcases List.mem_cons.mp hb with h1 | h1
          · subst h1
            refine ⟨c, List.mem_cons_self c rest, ?_⟩
            rw [hc]
            exact congrArg some hk
          · obtain ⟨c1, hc1, hk1⟩ := (ih (z + 1) row1 hr kind).mp ⟨b, h1, hk⟩
            exact ⟨c1, List.mem_cons_of_mem c hc1, hk1⟩
        · rintro ⟨c1, hc1, hk1⟩
          rcases List.mem_cons.mp hc1 with h1 | h1
          · subst h1
            rw [hc] at hk1
            refine ⟨mkBlock z_offset x_offset x_index z k0,
              List.mem_cons_self _ _, Option.some.inj hk1⟩
          · obtain ⟨b, hb, hk⟩ := (ih (z + 1) row1 hr kind).mpr ⟨c1, h1, hk1⟩
            exact ⟨b, List.mem_cons_of_mem _ hb, hk⟩

/-- Helper: the grid parse fails exactly when some line has a character
outside the legend. -/
theorem parseRows_eq_none_iff (z_offset : Rat) :
    ∀ (lines : List (List Char)) (x_index : Nat),
      parseRows z_offset x_index lines = none ↔
        ∃ line ∈ lines, ∃ c ∈ line, blockTypeFromChar c = none := by
  intro lines
  induction lines with
  | nil =>
    intro x
    simp [parseRows]
  | cons line rest ih =>
    intro x
    rw [parseRows]
    cases hrb : rowBlocks z_offset ((fieldX * (line.length : Rat)) / 2) x 0 line with
    | none =>
      simp only [hrb]
      constructor
      · intro _
        obtain ⟨c, hc, hn⟩ := (rowBlocks_eq_none_iff _ _ _ line 0).mp hrb
        exact ⟨line, List.mem_cons_self _ _, c, hc, hn⟩
      · intro _
        trivial
    | some row =>
      simp only [hrb]
      rw [Option.map_eq_none', ih (x + 1)]
      constructor
      · rintro ⟨line1, hl1, hc1⟩
        exact ⟨line1, List.mem_cons_of_mem line hl1, hc1⟩
      · rintro ⟨line1, hl1, hc1⟩
        rcases List.mem_cons.mp hl1 with h1 | h1
        · subst h1
          obtain ⟨c, hc, hn⟩ := hc1
          have := (rowBlocks_eq_none_iff z_offset
            ((fieldX * (line1.length : Rat)) / 2) x line1 0).mpr ⟨c, hc, hn⟩
          rw [hrb] at this
          cases this
        · exact ⟨line1, h1, hc1⟩

/-- Helper: the parsed grid carries exactly the kinds parsed from the map
lines. -/
theorem parseRows_kinds (z_offset : Rat) :
    ∀ (lines : List (List Char)) (x_index : Nat) (rows : List (List Block)),
      parseRows z_offset x_index lines = some rows →
      ∀ kind : BlockType,
        ((∃ b ∈ rows.flatten, b.kind = kind) ↔
          ∃ line ∈ lines, ∃ c ∈ line, blockTypeFromChar c = some kind) := by
  intro lines
  induction lines with
  | nil =>
    intro x rows h kind
    have hrow := Option.some.inj h
    subst hrow
    simp
  | cons line rest ih =>
    intro x rows h kind
    rw [parseRows] at h
    cases hrb : rowBlocks z_offset ((fieldX * (line.length : Rat)) / 2) x 0 line with
    | none =>
      rw [hrb] at h
      cases h
    | some row =>
      rw [hrb] at h
      cases hpr : parseRows z_offset (x + 1) rest with
      | none =>
        rw [hpr] at h
        cases h
      | some rows1 =>
        rw [hpr] at h
        have hrow := Option.some.inj h
        subst hrow
        rw [List.flatten_cons]
        constructor
        · rintro ⟨b, hb, hk⟩
          rcases List.mem_append.mp hb with h1 | h1
          · obtain ⟨c, hc, hk1⟩ := (rowBlocks_kinds _ _ _ line 0 row hrb kind).mp
              ⟨b, h1, hk⟩
            exact ⟨line, List.mem_cons_self _ _, c, hc, hk1⟩
          · obtain ⟨line1, hl1, hc1⟩ := (ih (x + 1) rows1 hpr kind).mp ⟨b, h1, hk⟩
            exact ⟨line1, List.mem_cons_of_mem line hl1, hc1⟩
        · rintro ⟨line1, hl1, hc1⟩
          rcases List.mem_cons.mp hl1 with h1 | h1
          · subst h1
            obtain ⟨b, hb, hk⟩ := (rowBlocks_kinds _ _ _ line1 0 row hrb kind).mpr hc1
            exact ⟨b, List.mem_append_left _ hb, hk⟩
          · obtain ⟨b, hb, hk⟩ := (ih (x + 1) rows1 hpr kind).mpr ⟨line1, h1, hc1⟩
            exact ⟨b, List.mem_append_right _ hb, hk⟩

/-- Helper: the running player scan of `Level::new` records the last Player
cell in scan order, or keeps the accumulator if none occurs. -/
theorem scanFold_fst (blocks : List Block) :
    ∀ acc : Option Position × Option Position,
      (scanFold blocks acc).1 =
        (((blocks.filter (fun b => b.kind = BlockType.Player)).getLast?).map
          (fun b => b.level_position)).or acc.1 := by
  induction blocks with
  | nil =>
    intro acc
    simp [scanFold]
  | cons b rest ih =>
    intro acc
    have hstep : scanFold (b :: rest) acc =
        scanFold rest
          (if b.kind = BlockType.Player then some b.level_position else acc.1,
            if b.kind = BlockType.Exit then some b.level_position else acc.2) := rfl
    rw [hstep, ih]
    by_cases hb : b.kind = BlockType.Player
    · have hfilter : (b :: rest).filter (fun b => b.kind = BlockType.Player) =
          b :: rest.filter (fun b => b.kind = BlockType.Player) := by
        simp [List.filter_cons, hb]
      rw [hfilter, List.getLast?_cons]
      cases hlast : (rest.filter (fun b => b.kind = BlockType.Player)).getLast? with
      | none => simp [hb]
      | some y => simp [hb]
    · have hfilter : (b :: rest).filter (fun b => b.kind = BlockType.Player) =
          rest.filter (fun b => b.kind = BlockType.Player) := by
        simp [List.filter_cons, hb]
      rw [hfilter]
      simp [hb]

/-- Helper: the running exit scan of `Level::new` records the last Exit cell
in scan order, or keeps the accumulator if none occurs. -/
theorem scanFold_snd (blocks : List Block) :
    ∀ acc : Option Position × Option Position,
      (scanFold blocks acc).2 =
        (((blocks.filter (fun b => b.kind = BlockType.Exit)).getLast?).map
          (fun b => b.level_position)).or acc.2 := by
  induction blocks with
  | nil =>
    intro acc
    simp [scanFold]
  | cons b rest ih =>
    intro acc
    have hstep : scanFold (b :: rest) acc =
        scanFold rest
          (if b.kind = BlockType.Player then some b.level_position else acc.1,
            if b.kind = BlockType.Exit then some b.level_position else acc.2) := rfl
    rw [hstep, ih]
    by_cases hb : b.kind = BlockType.Exit
    · have hfilter : (b :: rest).filter (fun b => b.kind = BlockType.Exit) =
          b :: rest.filter (fun b => b.kind = BlockType.Exit) := by
        simp [List.filter_cons, hb]
      rw [hfilter, List.getLast?_cons]
      cases hlast : (rest.filter (fun b => b.kind = BlockType.Exit)).getLast? with
      | none => simp [hb]
      | some y => simp [hb]
    · have hfilter : (b :: rest).filter (fun b => b.kind = BlockType.Exit) =
          rest.filter (fun b => b.kind = BlockType.Exit) := by
        simp [List.filter_cons, hb]
      rw [hfilter]
      simp [hb]

/-- Helper: a successful construction decomposes into a successful grid
parse, the scan result, empty dynamic maps and a hidden exit. -/
theorem level_new_some_elim (data : List Char) (l : Level)
    (h : Level.new data = some l) :
    ∃ rows, parseRows ((fieldZ * ((levelLines data).length : Rat)) / 2) 0
        (levelLines data) = some rows ∧
      l.rows = rows ∧
      scanFold rows.flatten (none, none) =
        (some l.player_position, some l.ending_position) ∧
      l.enemy_positions = [] ∧ l.coin_positions = [] ∧ l.bombs = [] ∧
      l.ending_visible = false := by
  simp only [Level.new] at h
  split at h
  · cases h
  · next rows hpr =>
    split at h
    · next pp ep hsc =>
      have hl := Option.some.inj h
      subst hl
      exact ⟨rows, hpr, rfl, hsc, rfl, rfl, rfl, rfl⟩
    · cases h

/-- Helper: a parsed board has a Player cell at its player position and an
Exit cell at its ending position, the last such cells of the scan in fact. -/
theorem level_new_scan_positions (data : List Char) (l : Level)
    (h : Level.new data = some l) :
    ((l.rows.flatten.filter (fun b => b.kind = BlockType.Player)).getLast?).map
        (fun b => b.level_position) = some l.player_position ∧
    ((l.rows.flatten.filter (fun b => b.kind = BlockType.Exit)).getLast?).map
        (fun b => b.level_position) = some l.ending_position := by
  obtain ⟨rows, hpr, hrows, hsc, -, -, -, -⟩ := level_new_some_elim data l h
  subst hrows
  have h1 := scanFold_fst l.rows.flatten (none, none)
  have h2 := scanFold_snd l.rows.flatten (none, none)
  rw [hsc] at h1 h2
  simp only [Option.or_none] at h1 h2
  exact ⟨h1.symm, h2.symm⟩

/-- Helper: full characterization of construction: the abort condition and
the shape of a successfully built board. -/
theorem level_new_characterization (data : List Char) :
    (Level.new data = none ↔
      (∃ line ∈ levelLines data, ∃ c ∈ line, blockTypeFromChar c = none) ∨
      (∀ line ∈ levelLines data, 'o' ∉ line) ∨
      (∀ line ∈ levelLines data, 'e' ∉ line)) ∧
    (∀ l, Level.new data = some l →
      l.enemy_positions = [] ∧ l.coin_positions = [] ∧ l.bombs = [] ∧
      l.ending_visible = false ∧
      (∃ b ∈ l.rows.flatten, b.kind = BlockType.Player ∧
        b.level_position = l.player_position) ∧
      (∃ b ∈ l.rows.flatten, b.kind = BlockType.Exit ∧
        b.level_position = l.ending_position)) := by
  have hsome : ∀ l, Level.new data = some l →
      l.enemy_positions = [] ∧ l.coin_positions = [] ∧ l.bombs = [] ∧
      l.ending_visible = false ∧
      (∃ b ∈ l.rows.flatten, b.kind = BlockType.Player ∧
        b.level_position = l.player_position) ∧
      (∃ b ∈ l.rows.flatten, b.kind = BlockType.Exit ∧
        b.level_position = l.ending_position) := by
    intro l h
    obtain ⟨rows, hpr, hrows, hsc, he, hc, hb, hv⟩ := level_new_some_elim data l h
    obtain ⟨hp1, hp2⟩ := level_new_scan_positions data l h
    refine ⟨he, hc, hb, hv, ?_, ?_⟩
    · cases hlast : (l.rows.flatten.filter
          (fun b => b.kind = BlockType.Player)).getLast? with
      | none =>
        rw [hlast] at hp1
        cases hp1
      | some y =>
        rw [hlast] at hp1
        have hy := getLast?_mem_of_eq hlast
        obtain ⟨hmem, hkind⟩ := List.mem_filter.mp hy
        exact ⟨y, hmem, by simpa using hkind, Option.some.inj hp1⟩
    · cases hlast : (l.rows.flatten.filter
          (fun b => b.kind = BlockType.Exit)).getLast? with
      | none =>
        rw [hlast] at hp2
        cases hp2
      | some y =>
        rw [hlast] at hp2
        have hy := getLast?_mem_of_eq hlast
        obtain ⟨hmem, hkind⟩ := List.mem_filter.mp hy
        exact ⟨y, hmem, by simpa using hkind, Option.some.inj hp2⟩
  refine ⟨?_, hsome⟩
  constructor
  · intro hn
    by_cases hbad : ∃ line ∈ levelLines data, ∃ c ∈ line, blockTypeFromChar c = none
    · exact Or.inl hbad
    right
    cases hpr : parseRows ((fieldZ * ((levelLines data).length : Rat)) / 2) 0
        (levelLines data) with
    | none =>
      exact absurd ((parseRows_eq_none_iff _ (levelLines data) 0).mp hpr) hbad
    | some rows =>
      simp only [Level.new, hpr] at hn
      split at hn
      · cases hn
      · next hne =>
        rcases hsc : scanFold rows.flatten (none, none) with ⟨o1, o2⟩
        have hnb : o1 = none ∨ o2 = none := by
          cases o1 with
          | none => exact Or.inl rfl
          | some pp =>
            cases o2 with
            | none => exact Or.inr rfl
            | some ep => exact absurd hsc (hne pp ep)
        have hf1 := scanFold_fst rows.flatten (none, none)
        have hf2 := scanFold_snd rows.flatten (none, none)
        rw [hsc] at hf1 hf2
        simp only [Option.or_none] at hf1 hf2
        rcases hnb with hnb | hnb
        · left
          intro line hline hc
          rw [hnb] at hf1
          have hfe : rows.flatten.filter (fun b => b.kind = BlockType.Player)
              = [] := by
            rcases hlast : (rows.flatten.filter
                (fun b => b.kind = BlockType.Player)).getLast? with _ | y
            · exact List.getLast?_eq_none_iff.mp hlast
            · rw [hlast] at hf1
              cases hf1
          have hnop : ¬ ∃ b ∈ rows.flatten, b.kind = BlockType.Player := by
            rintro ⟨b, hbm, hbk⟩
            have : b ∈ rows.flatten.filter
                (fun b => b.kind = BlockType.Player) :=
              List.mem_filter.mpr ⟨hbm, by simpa using hbk⟩
            rw [hfe] at this
            cases this
          have := (parseRows_kinds _ (levelLines data) 0 rows hpr
            BlockType.Player).mpr
            ⟨line, hline, 'o', hc, (blockTypeFromChar_player 'o').mpr rfl⟩
          exact hnop this
        · right
          intro line hline hc
          rw [hnb] at hf2
          have hfe : rows.flatten.filter (fun b => b.kind = BlockType.Exit)
              = [] := by
            rcases hlast : (rows.flatten.filter
                (fun b => b.kind = BlockType.Exit)).getLast? with _ | y
            · exact List.getLast?_eq_none_iff.mp hlast
            · rw [hlast] at hf2
              cases hf2
          have hnop : ¬ ∃ b ∈ rows.flatten, b.kind = BlockType.Exit := by
            rintro ⟨b, hbm, hbk⟩
            have : b ∈ rows.flatten.filter (fun b => b.kind = BlockType.Exit) :=
              List.mem_filter.mpr ⟨hbm, by simpa using hbk⟩
            rw [hfe] at this
            cases this
          have := (parseRows_kinds _ (levelLines data) 0 rows hpr
            BlockType.Exit).mpr
            ⟨line, hline, 'e', hc, (blockTypeFromChar_exit 'e').mpr rfl⟩
          exact hnop this
  · intro hd
    cases hn : Level.new data with
    | none => rfl
    | some l =>
      exfalso
      obtain ⟨-, -, -, -, ⟨bp, hbp, hbpk, -⟩, ⟨be, hbe, hbek, -⟩⟩ := hsome l hn
      obtain ⟨rows, hpr, hrows, -, -, -, -, -⟩ := level_new_some_elim data l hn
      rcases hd with hbad | hnp | hne2
      · rw [(parseRows_eq_none_iff _ (levelLines data) 0).mpr hbad] at hpr
        cases hpr
      · obtain ⟨line, hline, c, hc, hck⟩ :=
          (parseRows_kinds _ (levelLines data) 0 rows hpr BlockType.Player).mp
            ⟨bp, by rw [← hrows]; exact hbp, hbpk⟩
        have hco : c = 'o' := (blockTypeFromChar_player c).mp hck
        rw [hco] at hc
        exact hnp line hline hc
      · obtain ⟨line, hline, c, hc, hck⟩ :=
          (parseRows_kinds _ (levelLines data) 0 rows hpr BlockType.Exit).mp
            ⟨be, by rw [← hrows]; exact hbe, hbek⟩
        have hce : c = 'e' := (blockTypeFromChar_exit c).mp hck
        rw [hce] at hc
        exact hne2 line hline hc

/-- C4: board construction from a map text aborts exactly when the map
(after discarding blank lines) has a character outside the legend, no
player cell, or no exit cell; otherwise it returns a board whose
player/exit positions come from the scan, whose dynamic maps are all
empty, and whose exit-revealed flag is false. -/
theorem level_new_spec (data : List Char) :
    (Level.new data = none ↔
      (∃ line ∈ levelLines data, ∃ c ∈ line, blockTypeFromChar c = none) ∨
      (∀ line ∈ levelLines data, 'o' ∉ line) ∨
      (∀ line ∈ levelLines data, 'e' ∉ line)) ∧
    (∀ l, Level.new data = some l →
      l.enemy_positions = [] ∧ l.coin_positions = [] ∧ l.bombs = [] ∧
      l.ending_visible = false ∧
      (∃ b ∈ l.rows.flatten, b.kind = BlockType.Player ∧
        b.level_position = l.player_position) ∧
      (∃ b ∈ l.rows.flatten, b.kind = BlockType.Exit ∧
        b.level_position = l.ending_position)) :=
  level_new_characterization data

/-- Witness for C4 at concrete maps: a map with no player aborts, and the
corridor map builds a board with empty dynamic maps and a hidden exit. -/
theorem level_new_spec_witness :
    Level.new mapD = none ∧
    (levelA.enemy_positions = [] ∧ levelA.coin_positions = [] ∧
      levelA.bombs = [] ∧ levelA.ending_visible = false) := by
  constructor
  · exact (level_new_spec mapD).1.mpr (Or.inr (Or.inl (by decide)))
  · have h := (level_new_spec mapA).2 levelA new_mapA_eq
    exact ⟨h.1, h.2.1, h.2.2.1, h.2.2.2.1⟩

/-- Helper: the double-player double-exit map parses successfully into
`levelC`. -/
theorem new_mapC_eq : Level.new mapC = some levelC := by
  have hs : (Level.new mapC).isSome = true := by decide
  unfold levelC
  cases hn : Level.new mapC with
  | none =>
    rw [hn] at hs
    cases hs
  | some l => rfl

/-- C10: a map with several player or exit characters still constructs
successfully, and the board records, for each, the last occurrence in the
scan order (rows top to bottom, characters left to right) as
player_position and ending_position respectively. -/
theorem player_exit_last_occurrence (data : List Char) :
    ((¬ ∃ line ∈ levelLines data, ∃ c ∈ line, blockTypeFromChar c = none) →
      (∃ line ∈ levelLines data, 'o' ∈ line) →
      (∃ line ∈ levelLines data, 'e' ∈ line) →
      Level.new data ≠ none) ∧
    (∀ l, Level.new data = some l →
      ((l.rows.flatten.filter (fun b => b.kind = BlockType.Player)).getLast?).map
          (fun b => b.level_position) = some l.player_position ∧
      ((l.rows.flatten.filter (fun b => b.kind = BlockType.Exit)).getLast?).map
          (fun b => b.level_position) = some l.ending_position) := by
  constructor
  · intro hbad hp he hn
    rcases (level_new_characterization data).1.mp hn with h | h | h
    · exact hbad h
    · obtain ⟨line, hline, hc⟩ := hp
      exact h line hline hc
    · obtain ⟨line, hline, hc⟩ := he
      exact h line hline hc
  · intro l h
    exact level_new_scan_positions data l h

/-- Witness for C10 at the double-player double-exit map: construction
succeeds and records the later player (2, 2) and the later exit (1, 2). -/
theorem player_exit_last_occurrence_witness :
    ((levelC.rows.flatten.filter
        (fun b => b.kind = BlockType.Player)).getLast?).map
      (fun b => b.level_position) = some levelC.player_position ∧
    levelC.player_position = ⟨2, 2⟩ ∧ levelC.ending_position = ⟨1, 2⟩ := by
  have hne := (player_exit_last_occurrence mapC).1 (by decide) (by decide)
    (by decide)
  have h := ((player_exit_last_occurrence mapC).2 levelC new_mapC_eq).1
  exact ⟨h, by decide, by decide⟩

/-- Witness for C3 at a concrete board: the player cell of the corridor has
exactly the rightward direction free. -/
theorem free_directions_spec_witness :
    levelA.free_directions ⟨1, 1⟩ = [⟨1, 0⟩] :=
  ((free_directions_spec levelA ⟨1, 1⟩).1).trans (by decide)

/-- Helper: an in-bounds position is listed in `gridCells`. -/
theorem mem_gridCells (l : Level) (p : Position)
    (hx : p.x < l.size.x) (hz : p.z < l.size.z) : p ∈ gridCells l := by
  unfold gridCells
  rw [List.mem_flatten]
  refine ⟨(List.range l.size.x).map (fun x => Position.mk x p.z), ?_, ?_⟩
  · rw [List.mem_map]
    exact ⟨p.z, List.mem_range.mpr hz, rfl⟩
  · rw [List.mem_map]
    exact ⟨p.x, List.mem_range.mpr hx, rfl⟩

/-- Helper: `gridCells` has exactly width times height entries. -/
theorem gridCells_length (l : Level) :
    (gridCells l).length = l.size.z * l.size.x := by
  unfold gridCells
  rw [List.length_flatten, List.map_map]
  have : (List.map (List.length ∘ fun z =>
      (List.range l.size.x).map (fun x => Position.mk x z)) (List.range l.size.z))
      = List.replicate l.size.z l.size.x := by
    rw [show (List.length ∘ fun z => (List.range l.size.x).map
        (fun x => Position.mk x z)) = fun _ => l.size.x from ?_]
    · rw [List.map_const']
      rw [List.length_range]
    · funext z
      simp
  rw [this, List.sum_replicate, smul_eq_mul]

/-- Helper: filtering by a pointwise stronger predicate gives a shorter
list. -/
theorem length_filter_mono {α : Type} (L : List α) (p q : α → Bool)
    (h : ∀ x, p x = true → q x = true) :
    (L.filter p).length ≤ (L.filter q).length := by
  induction L with
  | nil => exact Nat.le_refl 0
  | cons a rest ih =>
    rw [List.filter_cons, List.filter_cons]
    by_cases hp : p a = true
    · rw [if_pos hp, if_pos (h a hp), List.length_cons, List.length_cons]
      exact Nat.succ_le_succ ih
    · rw [if_neg hp]
      by_cases hq : q a = true
      · rw [if_pos hq, List.length_cons]
        exact Nat.le_succ_of_le ih
      · rw [if_neg hq]
        exact ih

/-- Helper: growing the tested set never grows the remaining-cell count. -/
theorem remainingCells_mono (l : Level) (tested tested' : List Position)
    (h : ∀ q ∈ tested, q ∈ tested') :
    remainingCells l tested' ≤ remainingCells l tested := by
  apply length_filter_mono
  intro x hx
  simp only [decide_eq_true_eq] at hx ⊢
  intro hmem
  exact hx (h x hmem)

/-- Helper: filtering out one more element actually present strictly
shrinks the filtered length. -/
theorem filter_notmem_cons_lt {α : Type} [DecidableEq α] :
    ∀ (L : List α) (tested : List α) (p : α), p ∈ L → p ∉ tested →
      (L.filter (fun x => ¬ x ∈ (p :: tested))).length <
        (L.filter (fun x => ¬ x ∈ tested)).length := by
  intro L
  induction L with
  | nil =>
    intro tested p hm
    cases hm
  | cons a rest ih =>
    intro tested p hm hp
    simp only [List.filter_cons]
    by_cases hap : a = p
    · subst hap
      rw [if_neg (by simp), if_pos (by simpa using hp), List.length_cons]
      have hle := length_filter_mono rest (fun x => ¬ x ∈ (a :: tested))
        (fun x => ¬ x ∈ tested) ?_
      · omega
      · intro x hx
        simp only [decide_eq_true_eq] at hx ⊢
        intro hmem
        exact hx (List.mem_cons_of_mem a hmem)
    · have hpm : p ∈ rest := by
        rcases List.mem_cons.mp hm with h | h
        · exact absurd h.symm hap
        · exact h
      have hcond : (decide ¬ a ∈ (p :: tested)) = (decide ¬ a ∈ tested) :=
        decide_eq_decide.mpr (by simp [List.mem_cons, hap])
      rw [hcond]
      by_cases hmemA : a ∈ tested
      · rw [if_neg (by simp [hmemA]), if_neg (by simp [hmemA])]
        exact ih tested p hpm hp
      · rw [if_pos (by simp [hmemA]), if_pos (by simp [hmemA]),
          List.length_cons, List.length_cons]
        have := ih tested p hpm hp
        omega

/-- Helper: marking a fresh in-grid cell tested strictly shrinks the
remaining-cell count. -/
theorem remainingCells_strict (l : Level) (tested : List Position)
    (p : Position) (hmem : p ∈ gridCells l) (hp : p ∉ tested) :
    remainingCells l (p :: tested) < remainingCells l tested :=
  filter_notmem_cons_lt (gridCells l) tested p hmem hp

/-- Helper: the master invariant of the recursive wall search. Starting
from a state where every tested good cell is already collected and the
collected cells are tested, the search only appends good, reachable, fresh
cells; it preserves the invariant; it marks the candidate of every
processed direction tested; every newly collected cell has all four of its
candidates tested; and the remaining-cell measure never grows. -/
theorem recursiveSearch_master (l : Level) (root : Position) :
    ∀ (fuel : Nat) (dirs : List (Int × Int)) (pos : Position)
      (into tested : List Position),
      dirs ⊆ dirs4 →
      Relation.ReflTransGen (wallStep l) root pos →
      (∀ q ∈ tested, goodWallB l q = true → q ∈ into) →
      (∀ q ∈ into, q ∈ tested) →
      remainingCells l tested < fuel →
      (∃ extra, (recursiveSearch l fuel pos dirs into tested).1 = into ++ extra ∧
        ∀ q ∈ extra, goodWallB l q = true ∧
          Relation.ReflTransGen (wallStep l) root q ∧ q ∉ tested) ∧
      (∀ q ∈ tested, q ∈ (recursiveSearch l fuel pos dirs into tested).2) ∧
      (∀ q ∈ (recursiveSearch l fuel pos dirs into tested).2,
        goodWallB l q = true → q ∈ (recursiveSearch l fuel pos dirs into tested).1) ∧
      (∀ d ∈ dirs, pos.apply_direction ⟨d.1, d.2⟩ ∈
        (recursiveSearch l fuel pos dirs into tested).2) ∧
      (∀ q ∈ (recursiveSearch l fuel pos dirs into tested).1, q ∉ into →
        ∀ d ∈ dirs4, q.apply_direction ⟨d.1, d.2⟩ ∈
          (recursiveSearch l fuel pos dirs into tested).2) ∧
      remainingCells l (recursiveSearch l fuel pos dirs into tested).2 ≤
        remainingCells l tested ∧
      (∀ q ∈ (recursiveSearch l fuel pos dirs into tested).1,
        q ∈ (recursiveSearch l fuel pos dirs into tested).2) := by
  intro fuel
  induction fuel using Nat.strong_induction_on with
  | _ fuel ihf =>
  intro dirs
  induction dirs with
  | nil =>
    intro pos into tested hd hr h1 h5 h2
    rw [recursiveSearch]
    refine ⟨⟨[], by simp, by simp⟩, fun q hq => hq, h1, by simp, ?_,
      Nat.le_refl _, h5⟩
    intro q hq hnq
    exact absurd hq hnq
  | cons d rest ihd =>
    intro pos into tested hd hr h1 h5 h2
    obtain ⟨mx, mz⟩ := d
    have hdmem : (mx, mz) ∈ dirs4 := hd (List.mem_cons_self _ _)
    have hdrest : rest ⊆ dirs4 := fun x hx => hd (List.mem_cons_of_mem _ hx)
    rcases fuel with _ | fuel1
    · exact absurd h2 (by omega)
    by_cases hmem : pos.apply_direction ⟨mx, mz⟩ ∈ tested
    · have hred : recursiveSearch l (fuel1 + 1) pos ((mx, mz) :: rest)
          into tested = recursiveSearch l (fuel1 + 1) pos rest into tested := by
        rw [recursiveSearch]
        simp only [hmem, if_true]
      rw [hred]
      obtain ⟨hc1, hc2, hc3, hc4, hc5, hc6, hc7⟩ :=
        ihd pos into tested hdrest hr h1 h5 h2
      refine ⟨hc1, hc2, hc3, ?_, hc5, hc6, hc7⟩
      intro d hdm
      rcases List.mem_cons.mp hdm with hdm | hdm
      · cases hdm
        exact hc2 _ hmem
      · exact hc4 d hdm
    · cases hget : l.get ((pos.apply_direction ⟨mx, mz⟩).x : Int)
          ((pos.apply_direction ⟨mx, mz⟩).z : Int) with
      | none =>
        have hred : recursiveSearch l (fuel1 + 1) pos ((mx, mz) :: rest)
            into tested = recursiveSearch l (fuel1 + 1) pos rest into
              (pos.apply_direction ⟨mx, mz⟩ :: tested) := by
          rw [recursiveSearch]
          simp only [hmem, if_false, hget]
        have hgood : goodWallB l (pos.apply_direction ⟨mx, mz⟩) = false := by
          simp only [goodWallB, hget]
        have h1n : ∀ q ∈ pos.apply_direction ⟨mx, mz⟩ :: tested,
            goodWallB l q = true → q ∈ into := by
          intro q hq hg
          rcases List.mem_cons.mp hq with h | h
          · subst h
            rw [hgood] at hg
            cases hg
          · exact h1 q h hg
        have h5n : ∀ q ∈ into, q ∈ pos.apply_direction ⟨mx, mz⟩ :: tested :=
          fun q hq => List.mem_cons_of_mem _ (h5 q hq)
        have hmono : remainingCells l (pos.apply_direction ⟨mx, mz⟩ :: tested) ≤
            remainingCells l tested :=
          remainingCells_mono l tested _ (fun q hq => List.mem_cons_of_mem _ hq)
        have h2n : remainingCells l (pos.apply_direction ⟨mx, mz⟩ :: tested) <
            fuel1 + 1 := lt_of_le_of_lt hmono h2
        obtain ⟨⟨extra, heq, hextra⟩, hc2, hc3, hc4, hc5, hc6, hc7⟩ :=
          ihd pos into (pos.apply_direction ⟨mx, mz⟩ :: tested) hdrest hr h1n
            h5n h2n
        rw [hred]
        refine ⟨⟨extra, heq, ?_⟩, ?_, hc3, ?_, hc5, le_trans hc6 hmono, hc7⟩
        · intro q hq
          obtain ⟨hg, hrq, hnt⟩ := hextra q hq
          exact ⟨hg, hrq, fun hmem2 => hnt (List.mem_cons_of_mem _ hmem2)⟩
        · intro q hq
          exact hc2 q (List.mem_cons_of_mem _ hq)
        · intro d hdm
          rcases List.mem_cons.mp hdm with hdm | hdm
          · cases hdm
            exact hc2 _ (List.mem_cons_self _ _)
          · exact hc4 d hdm
      | some block =>
        by_cases hguard : block.kind.is_wall = true ∧
            block.kind ≠ BlockType.WallSmallV
        · have hred : recursiveSearch l (fuel1 + 1) pos ((mx, mz) :: rest)
              into tested =
                recursiveSearch l (fuel1 + 1) pos rest
                  (recursiveSearch l fuel1 (pos.apply_direction ⟨mx, mz⟩) dirs4
                    (into ++ [pos.apply_direction ⟨mx, mz⟩])
                    (pos.apply_direction ⟨mx, mz⟩ :: tested)).1
                  (recursiveSearch l fuel1 (pos.apply_direction ⟨mx, mz⟩) dirs4
                    (into ++ [pos.apply_direction ⟨mx, mz⟩])
                    (pos.apply_direction ⟨mx, mz⟩ :: tested)).2 := by
            rw [recursiveSearch]
            simp only [hmem, if_false, hget, hguard.1, hguard.2, ne_eq,
              not_false_eq_true, eq_self_iff_true, true_and, and_true, if_true]
          have hgood : goodWallB l (pos.apply_direction ⟨mx, mz⟩) = true := by
            simp only [goodWallB, hget, hguard.1, Bool.true_and,
              decide_eq_true_eq]
            exact hguard.2
          have hbounds := get_some_bounds l _ _ _ hget
          have hnewgrid : pos.apply_direction ⟨mx, mz⟩ ∈ gridCells l := by
            refine mem_gridCells l _ ?_ ?_ <;> omega
          have hstep : wallStep l pos (pos.apply_direction ⟨mx, mz⟩) :=
            ⟨⟨(mx, mz), hdmem, rfl⟩, hgood⟩
          have hrnew : Relation.ReflTransGen (wallStep l) root
              (pos.apply_direction ⟨mx, mz⟩) := hr.tail hstep
          have h1i : ∀ q ∈ pos.apply_direction ⟨mx, mz⟩ :: tested,
              goodWallB l q = true →
                q ∈ into ++ [pos.apply_direction ⟨mx, mz⟩] := by
            intro q hq hg
            rcases List.mem_cons.mp hq with h | h
            · subst h
              exact List.mem_append_right _ (List.mem_cons_self _ _)
            · exact List.mem_append_left _ (h1 q h hg)
          have h5i : ∀ q ∈ into ++ [pos.apply_direction ⟨mx, mz⟩],
              q ∈ pos.apply_direction ⟨mx, mz⟩ :: tested := by
            intro q hq
            rcases List.mem_append.mp hq with h | h
            · exact List.mem_cons_of_mem _ (h5 q h)
            · rcases List.mem_cons.mp h with h | h
              · subst h
                exact List.mem_cons_self _ _
              · cases h
          have hstrict : remainingCells l
              (pos.apply_direction ⟨mx, mz⟩ :: tested) <
                remainingCells l tested :=
            remainingCells_strict l tested _ hnewgrid hmem
          have h2i : remainingCells l
              (pos.apply_direction ⟨mx, mz⟩ :: tested) < fuel1 := by omega
          obtain ⟨⟨extra1, heq1, hex1⟩, ic2, ic3, ic4, ic5, ic6, ic7⟩ :=
            ihf fuel1 (Nat.lt_succ_self _) dirs4
              (pos.apply_direction ⟨mx, mz⟩)
              (into ++ [pos.apply_direction ⟨mx, mz⟩])
              (pos.apply_direction ⟨mx, mz⟩ :: tested)
              (fun x hx => hx) hrnew h1i h5i h2i
          have h2c : remainingCells l
              (recursiveSearch l fuel1 (pos.apply_direction ⟨mx, mz⟩) dirs4
                (into ++ [pos.apply_direction ⟨mx, mz⟩])
                (pos.apply_direction ⟨mx, mz⟩ :: tested)).2 < fuel1 + 1 := by
            have := le_trans ic6 (le_of_lt hstrict)
            omega
          obtain ⟨⟨extra2, heq2, hex2⟩, cc2, cc3, cc4, cc5, cc6, cc7⟩ :=
            ihd pos
              (recursiveSearch l fuel1 (pos.apply_direction ⟨mx, mz⟩) dirs4
                (into ++ [pos.apply_direction ⟨mx, mz⟩])
                (pos.apply_direction ⟨mx, mz⟩ :: tested)).1
              (recursiveSearch l fuel1 (pos.apply_direction ⟨mx, mz⟩) dirs4
                (into ++ [pos.apply_direction ⟨mx, mz⟩])
                (pos.apply_direction ⟨mx, mz⟩ :: tested)).2
              hdrest hr ic3 ic7 h2c
          rw [hred]
          have htested_st2 : ∀ q ∈ tested,
              q ∈ (recursiveSearch l fuel1 (pos.apply_direction ⟨mx, mz⟩) dirs4
                (into ++ [pos.apply_direction ⟨mx, mz⟩])
                (pos.apply_direction ⟨mx, mz⟩ :: tested)).2 :=
            fun q hq => ic2 q (List.mem_cons_of_mem _ hq)
          refine ⟨?_, ?_, cc3, ?_, ?_, ?_, cc7⟩
          · refine ⟨[pos.apply_direction ⟨mx, mz⟩] ++ extra1 ++ extra2, ?_, ?_⟩
            · rw [heq2, heq1]
              simp [List.append_assoc]
            · intro q hq
              simp only [List.append_assoc, List.mem_append,
                List.mem_singleton] at hq
              rcases hq with hq | hq | hq
              · subst hq
                exact ⟨hgood, hrnew, hmem⟩
              · obtain ⟨hg, hrq, hnt⟩ := hex1 q hq
                exact ⟨hg, hrq, fun hc => hnt (List.mem_cons_of_mem _ hc)⟩
              · obtain ⟨hg, hrq, hnt⟩ := hex2 q hq
                exact ⟨hg, hrq, fun hc => hnt (htested_st2 q hc)⟩
          · intro q hq
            exact cc2 q (htested_st2 q hq)
          · intro d hdm
            rcases List.mem_cons.mp hdm with hdm | hdm
            · cases hdm
              exact cc2 _ (ic2 _ (List.mem_cons_self _ _))
            · exact cc4 d hdm
          · intro q hq hninto d hdm
            by_cases hqst : q ∈ (recursiveSearch l fuel1
                (pos.apply_direction ⟨mx, mz⟩) dirs4
                (into ++ [pos.apply_direction ⟨mx, mz⟩])
                (pos.apply_direction ⟨mx, mz⟩ :: tested)).1
            · rw [heq1] at hqst
              rcases List.mem_append.mp hqst with hq1 | hq1
              · rcases List.mem_append.mp hq1 with hq2 | hq2
                · exact absurd hq2 hninto
                · rcases List.mem_cons.mp hq2 with hq3 | hq3
                  · subst hq3
                    exact cc2 _ (ic4 d hdm)
                  · cases hq3
              · have hnin : q ∉ into ++ [pos.apply_direction ⟨mx, mz⟩] := by
                  obtain ⟨-, -, hnt⟩ := hex1 q hq1
                  intro hc
                  rcases List.mem_append.mp hc with hc | hc
                  · exact hnt (List.mem_cons_of_mem _ (h5 q hc))
                  · rcases List.mem_cons.mp hc with hc | hc
                    · subst hc
                      exact hnt (List.mem_cons_self _ _)
                    · cases hc
                have := ic5 q (by rw [heq1]; exact List.mem_append_right _ hq1)
                  hnin d hdm
                exact cc2 _ this
            · exact cc5 q hq hqst d hdm
          · exact le_trans cc6 (le_trans ic6 (le_of_lt hstrict))
        · have hred : recursiveSearch l (fuel1 + 1) pos ((mx, mz) :: rest)
              into tested = recursiveSearch l (fuel1 + 1) pos rest into
                (pos.apply_direction ⟨mx, mz⟩ :: tested) := by
            rw [recursiveSearch]
            simp only [hmem, if_false, hget, hguard]
          have hgood : goodWallB l (pos.apply_direction ⟨mx, mz⟩) = false := by
            simp only [goodWallB, hget]
            rcases Decidable.not_and_iff_or_not.mp hguard with h | h
            · have : block.kind.is_wall = false := by
                cases hw : block.kind.is_wall with
                | true => exact absurd hw h
                | false => rfl
              rw [this]
              rfl
            · have : block.kind = BlockType.WallSmallV := Decidable.not_not.mp h
              rw [this]
              rfl
          have h1n : ∀ q ∈ pos.apply_direction ⟨mx, mz⟩ :: tested,
              goodWallB l q = true → q ∈ into := by
            intro q hq hg
            rcases List.mem_cons.mp hq with h | h
            · subst h
              rw [hgood] at hg
              cases hg
            · exact h1 q h hg
          have h5n : ∀ q ∈ into, q ∈ pos.apply_direction ⟨mx, mz⟩ :: tested :=
            fun q hq => List.mem_cons_of_mem _ (h5 q hq)
          have hmono : remainingCells l
              (pos.apply_direction ⟨mx, mz⟩ :: tested) ≤
                remainingCells l tested :=
            remainingCells_mono l tested _ (fun q hq => List.mem_cons_of_mem _ hq)
          have h2n : remainingCells l
              (pos.apply_direction ⟨mx, mz⟩ :: tested) < fuel1 + 1 :=
            lt_of_le_of_lt hmono h2
          obtain ⟨⟨extra, heq, hextra⟩, hc2, hc3, hc4, hc5, hc6, hc7⟩ :=
            ihd pos into (pos.apply_direction ⟨mx, mz⟩ :: tested) hdrest hr
              h1n h5n h2n
          rw [hred]
          refine ⟨⟨extra, heq, ?_⟩, ?_, hc3, ?_, hc5, le_trans hc6 hmono, hc7⟩
          · intro q hq
            obtain ⟨hg, hrq, hnt⟩ := hextra q hq
            exact ⟨hg, hrq, fun hmem2 => hnt (List.mem_cons_of_mem _ hmem2)⟩
          · intro q hq
            exact hc2 q (List.mem_cons_of_mem _ hq)
          · intro d hdm
            rcases List.mem_cons.mp hdm with hdm | hdm
            · cases hdm
              exact hc2 _ (List.mem_cons_self _ _)
            · exact hc4 d hdm

/-- C5: `wall_positions` returns the empty list when the cell one step in
+z from the position is out of bounds or not a wall kind; otherwise it
returns that south neighbor first, together with exactly the cells
connected to it through chains of cardinal neighbors that are wall kinds
other than the small vertical wall (the guard applied to every candidate,
so a WallSmallV cell is never added and never propagates the search). -/
theorem wall_positions_spec (l : Level) (p : Position) :
    (l.wall_positions p = [] ↔
      ¬ ∃ b, l.get ((p.apply_direction ⟨0, 1⟩).x : Int)
        ((p.apply_direction ⟨0, 1⟩).z : Int) = some b ∧
          b.kind.is_wall = true) ∧
    ((∃ b, l.get ((p.apply_direction ⟨0, 1⟩).x : Int)
        ((p.apply_direction ⟨0, 1⟩).z : Int) = some b ∧
          b.kind.is_wall = true) →
      (l.wall_positions p).head? = some (p.apply_direction ⟨0, 1⟩) ∧
      ∀ q, q ∈ l.wall_positions p ↔
        (q = p.apply_direction ⟨0, 1⟩ ∨
          (goodWallB l q = true ∧
            Relation.ReflTransGen (wallStep l)
              (p.apply_direction ⟨0, 1⟩) q))) := by
  cases hget : l.get ((p.apply_direction ⟨0, 1⟩).x : Int)
      ((p.apply_direction ⟨0, 1⟩).z : Int) with
  | none =>
    have hres : l.wall_positions p = [] := by
      simp only [Level.wall_positions, hget]
    rw [hres]
    constructor
    · constructor
      · rintro - ⟨b, hb, -⟩
        cases hb
      · intro _
        rfl
    · rintro ⟨b, hb, -⟩
      cases hb
  | some block =>
    by_cases hw : block.kind.is_wall = true
    · have hres : l.wall_positions p =
          (recursiveSearch l (l.size.x * l.size.z + 1)
            (p.apply_direction ⟨0, 1⟩) dirs4 [p.apply_direction ⟨0, 1⟩]
            [p.apply_direction ⟨0, 1⟩]).1 := by
        simp only [Level.wall_positions, hget]
        rw [if_pos hw]
      rw [hres]
      have hbounds := get_some_bounds l _ _ _ hget
      have h2 : remainingCells l [p.apply_direction ⟨0, 1⟩] <
          l.size.x * l.size.z + 1 := by
        have hle : remainingCells l [p.apply_direction ⟨0, 1⟩] ≤
            (gridCells l).length := List.length_filter_le _ _
        rw [gridCells_length] at hle
        have hcomm : l.size.z * l.size.x = l.size.x * l.size.z :=
          Nat.mul_comm _ _
        omega
      obtain ⟨⟨extra, heq, hextra⟩, mc2, mc3, mc4, mc5, mc6, mc7⟩ :=
        recursiveSearch_master l (p.apply_direction ⟨0, 1⟩)
          (l.size.x * l.size.z + 1) dirs4 (p.apply_direction ⟨0, 1⟩)
          [p.apply_direction ⟨0, 1⟩] [p.apply_direction ⟨0, 1⟩]
          (fun x hx => hx) Relation.ReflTransGen.refl
          (fun q hq _ => hq) (fun q hq => hq) h2
      have hcomplete : ∀ q, Relation.ReflTransGen (wallStep l)
          (p.apply_direction ⟨0, 1⟩) q →
            q = p.apply_direction ⟨0, 1⟩ ∨
              (goodWallB l q = true ∧
                q ∈ (recursiveSearch l (l.size.x * l.size.z + 1)
                  (p.apply_direction ⟨0, 1⟩) dirs4 [p.apply_direction ⟨0, 1⟩]
                  [p.apply_direction ⟨0, 1⟩]).1) := by
        intro q hreach
        induction hreach with
        | refl => exact Or.inl rfl
        | tail hab hbc ih =>
          rename_i b c
          right
          refine ⟨hbc.2, ?_⟩
          obtain ⟨⟨dstep, hdstep, hceq⟩, hcgood⟩ := hbc
          have hintest : ∀ r, r ∈ (recursiveSearch l (l.size.x * l.size.z + 1)
              (p.apply_direction ⟨0, 1⟩) dirs4 [p.apply_direction ⟨0, 1⟩]
              [p.apply_direction ⟨0, 1⟩]).2 → goodWallB l r = true →
                r ∈ (recursiveSearch l (l.size.x * l.size.z + 1)
                  (p.apply_direction ⟨0, 1⟩) dirs4 [p.apply_direction ⟨0, 1⟩]
                  [p.apply_direction ⟨0, 1⟩]).1 := mc3
          rcases ih with hb | ⟨hgb, hbmem⟩
          · subst hb
            subst hceq
            exact hintest _ (mc4 dstep hdstep) hcgood
          · rw [heq] at hbmem
            rcases List.mem_append.mp hbmem with hb1 | hb1
            · rcases List.mem_cons.mp hb1 with hb2 | hb2
              · subst hb2
                subst hceq
                exact hintest _ (mc4 dstep hdstep) hcgood
              · cases hb2
            · obtain ⟨-, -, hnt⟩ := hextra b hb1
              have hbnotinto : b ∉ [p.apply_direction ⟨0, 1⟩] := by
                intro hc
                rcases List.mem_cons.mp hc with hc | hc
                · subst hc
                  exact hnt (List.mem_cons_self _ _)
                · cases hc
              have := mc5 b (by rw [heq]; exact List.mem_append_right _ hb1)
                hbnotinto dstep hdstep
              subst hceq
              exact hintest _ this hcgood
      constructor
      · constructor
        · intro hnil
          rw [heq] at hnil
          simp at hnil
        · rintro hno
          exact absurd ⟨block, rfl, hw⟩ hno
      · intro hex0
        constructor
        · rw [heq]
          rfl
        · intro q
          constructor
          · intro hq
            rw [heq] at hq
            rcases List.mem_append.mp hq with h1 | h1
            · rcases List.mem_cons.mp h1 with h2 | h2
              · exact Or.inl h2
              · cases h2
            · obtain ⟨hg, hrq, -⟩ := hextra q h1
              exact Or.inr ⟨hg, hrq⟩
          · rintro (hq | ⟨hg, hrq⟩)
            · subst hq
              rw [heq]
              exact List.mem_append_left _ (List.mem_cons_self _ _)
            · rcases hcomplete q hrq with h1 | ⟨-, h1⟩
              · subst h1
                rw [heq]
                exact List.mem_append_left _ (List.mem_cons_self _ _)
              · exact h1
    · have hres : l.wall_positions p = [] := by
        simp only [Level.wall_positions, hget]
        rw [if_neg hw]
      rw [hres]
      constructor
      · constructor
        · rintro - ⟨b, hb, hbw⟩
          have := Option.some.inj hb
          subst this
          exact hw hbw
        · intro _
          rfl
      · rintro ⟨b, hb, hbw⟩
        have := Option.some.inj hb
        subst this
        exact absurd hbw hw

/-- Witness for C5 at a concrete board: below (2, 1) of the clustered map
sits a wall, and the returned list starts with that south neighbor. -/
theorem wall_positions_spec_witness :
    (levelB.wall_positions ⟨2, 1⟩).head? =
      some ((Position.mk 2 1).apply_direction ⟨0, 1⟩) :=
  ((wall_positions_spec levelB ⟨2, 1⟩).2 ⟨_, rfl, by decide⟩).1

end Pacbomber
